import Mathlib

/-!
Verification of the pglint index-analysis core.

The definitions below are a shallow embedding of the Go source:

* `Index`, `Index.EquivalentTo`, `Index.Kind` — index.go
* `vecEqual` — the `oidVector.equal` / `int2Vector.equal` helpers of types.go
* `bisectIndexes`, `filterIndexes`, `findDuplicateIndexSets`,
  `findUnusedIndexes`, `findRedundantIndexPairs`, `prefixOf`,
  `isRedundantIndex`, `getRelevantUnusedIndexes`, `dupSetLess` — pprint.go
* `DB`, `DB.allIndexes` — main.go (the cached snapshot; `allIndexes` hands a
  fresh copy of the cached slice to every caller)

Machine integers (Go `int`, `int64`, `Bytes`) are modelled as `Int`; the
program only compares them, so overflow is irrelevant.  OIDs (`pgtype.OID`,
unsigned 32-bit identifiers that are never subject to arithmetic) are
modelled as `Nat`.  Go slices become `List`s.  Where the Go code relies on
slice *pointer* identity (`ind1 != ind2` in `findRedundantIndexPairs`),
the embedding tags every descriptor with its position in the input slice
(`List.enum`) and compares tags, which is exactly what pointer inequality
distinguishes for a slice freshly built from one descriptor per row.
-/

/-- Model of the Go `Index` struct (index.go).  Field for field; the Go
`namespace` field is called `nspace` because `namespace` is a Lean keyword. -/
structure Index where
  oid : Nat
  name : String
  namespaceOID : Nat
  nspace : String
  tableOID : Nat
  tableName : String
  numColumns : Int
  isUnique : Bool
  isPrimary : Bool
  isValid : Bool
  isLive : Bool
  keys : List Int
  collations : List Nat
  classes : List Nat
  options : List Nat
  exprs : String
  pred : String
  definition : Option String
  numPages : Int
  numRows : Int
  numTablePages : Int
  numTableRows : Int
  numScans : Int
  numTuplesRead : Int
  numTuplesFetched : Int
  size : Int
  attrs : List String
deriving DecidableEq

/-- The `equal` method shared by `oidVector` and `int2Vector` (types.go):
false when the lengths differ, otherwise an element-by-element comparison. -/
def vecEqual {α : Type} [BEq α] (vec rhs : List α) : Bool :=
  if vec.length != rhs.length then false
  else (vec.zip rhs).all fun p => p.1 == p.2

/-- `Index.EquivalentTo` (index.go): true immediately when the OIDs agree
(the "special case shortcut when v is u"), otherwise a conjunction of field
equalities.  Note that it compares `keys`/`collations`/`classes`/`options`/
`exprs`/`pred`, never `attrs` or `numColumns`. -/
def Index.EquivalentTo (v u : Index) : Bool :=
  if v.oid == u.oid then true
  else
    v.tableOID == u.tableOID &&
    v.isUnique == u.isUnique &&
    vecEqual v.keys u.keys &&
    vecEqual v.collations u.collations &&
    vecEqual v.classes u.classes &&
    vecEqual v.options u.options &&
    v.exprs == u.exprs &&
    v.pred == u.pred

/-- The three `indexKind` constants of index.go ("U", "N", "P"). -/
inductive IndexKind where
  | U
  | N
  | P
deriving DecidableEq

/-- `Index.Kind` (index.go): primary wins over unique; otherwise non-unique. -/
def Index.Kind (v : Index) : IndexKind :=
  if v.isPrimary then IndexKind.P
  else if v.isUnique then IndexKind.U
  else IndexKind.N

/-- The comparator of `sortIndexSetsByName` (pprint.go), applied to the lead
indexes `sets[i][0]` and `sets[j][0]` of two duplicate sets.  Translated
verbatim, including the final `ind1.TableName() == ind2.TableName()` (an
equality test in a position where a less-than test is required). -/
def dupSetLess (ind1 ind2 : Index) : Bool :=
  if ind1.tableName == ind2.tableName then decide (ind1.name < ind2.name)
  else ind1.tableName == ind2.tableName

/-- `prefixOf` (pprint.go): ind1's attributes are a strict prefix of ind2's. -/
def prefixOf (ind1 ind2 : Index) : Bool :=
  let attrs1 := ind1.attrs
  let attrs2 := ind2.attrs
  if attrs1.length ≥ attrs2.length then false
  else (attrs1.zip attrs2).all fun p => p.1 == p.2

/-- `isRedundantIndex` (pprint.go). -/
def isRedundantIndex (ind1 ind2 : Index) : Bool :=
  ind1.isUnique == ind2.isUnique && ind1.pred == ind2.pred && prefixOf ind1 ind2

/-- `filterIndexes` (pprint.go): keeps, in order, the values satisfying the
predicate (the Go loop appends each hit to `answer`). -/
def filterIndexes (xs : List Index) (p : Index → Bool) : List Index :=
  xs.foldl (fun answer x => if p x then answer ++ [x] else answer) []

/-- Core of `findUnusedIndexes` (pprint.go): filter by `NumScans() <= cutoff`.
The Go function's only other behaviour is propagating an error from
`db.allIndexes()`, which never fails once the snapshot is loaded. -/
def findUnusedIndexes (indexes : List Index) (cutoff : Int) : List Index :=
  filterIndexes indexes fun ind => decide (ind.numScans ≤ cutoff)

/-- One pass of `bisectIndexes` (pprint.go), fuel-indexed.  The Go loop keeps
two cursors `i` and `n`; a hit at `i` is swapped with position `n-1`, which
brings the last unexamined element to the front of the unexamined segment.
The recursion below replays exactly that: on a hit, the segment's last
element moves to the front and the hit is appended to the "true" side (the
true side of the returned pair is `xs[n:]`, i.e. in ascending positions the
hits appear in reverse discovery order); on a miss the element stays, in
order, on the "false" side.  `fuel` only has to dominate the segment length
(each step consumes one element), and `bisectIndexes` supplies exactly that. -/
def bisectIndexesAux (p : Index → Bool) : Nat → List Index → List Index × List Index
  | _, [] => ([], [])
  | 0, xs => ([], xs)
  | fuel + 1, h :: rest =>
    if p h then
      match rest with
      | [] => ([h], [])
      | r :: rs =>
        let res := bisectIndexesAux p fuel
          (((r :: rs).getLast (List.cons_ne_nil r rs)) :: (r :: rs).dropLast)
        (res.1 ++ [h], res.2)
    else
      let res := bisectIndexesAux p fuel rest
      (res.1, h :: res.2)

/-- `bisectIndexes` (pprint.go): partitions `xs` into (hits, misses). -/
def bisectIndexes (xs : List Index) (p : Index → Bool) : List Index × List Index :=
  bisectIndexesAux p xs.length xs

/-- The loop of `findDuplicateIndexSets` (pprint.go), fuel-indexed.  Each
iteration bisects the remaining indexes against `indexes[0].EquivalentTo`,
emits the equivalent group when it has at least two members, and continues
on the rest.  The pivot always lands in the "true" side (`EquivalentTo` is
reflexive via the OID shortcut), so every iteration strictly shrinks the
remainder and `fuel = length` never runs out. -/
def findDuplicateIndexSetsAux : Nat → List Index → List (List Index)
  | _, [] => []
  | 0, _ => []
  | fuel + 1, p :: t =>
    let res := bisectIndexes (p :: t) p.EquivalentTo
    (if 2 ≤ res.1.length then [res.1] else []) ++ findDuplicateIndexSetsAux fuel res.2

/-- Core of `findDuplicateIndexSets` (pprint.go). -/
def findDuplicateIndexSets (indexes : List Index) : List (List Index) :=
  findDuplicateIndexSetsAux indexes.length indexes

/-- The candidate-building pass of `findRedundantIndexPairs` (pprint.go):
only indexes with `!IsPrimary() && !IsUnique()` enter the per-table map. -/
def candidateIndexes (indexes : List Index) : List (Nat × Index) :=
  indexes.enum.filter fun p => !p.2.isPrimary && !p.2.isUnique

/-- The distinct table OIDs of the candidates, in first-appearance order.
Go iterates the map `indexesByTable` in an unspecified order; the embedding
fixes first-insertion order (every property proved below is independent of
this choice). -/
def tableOIDKeys (cands : List (Nat × Index)) : List Nat :=
  cands.foldl (fun ks p => if ks.contains p.2.tableOID then ks else ks ++ [p.2.tableOID]) []

/-- The bucket `indexesByTable[t]`: candidates appended in slice order. -/
def tableGroup (cands : List (Nat × Index)) (t : Nat) : List (Nat × Index) :=
  cands.filter fun p => p.2.tableOID == t

/-- Core of `findRedundantIndexPairs` (pprint.go): within each table group,
for each `ind1` take the first `ind2` (group order) with `ind1 != ind2 &&
isRedundantIndex(ind1, ind2)` — the `break` makes it at most one pair per
`ind1` — and emit the pair `(ind1, ind2)`. -/
def findRedundantIndexPairs (indexes : List Index) : List ((Nat × Index) × (Nat × Index)) :=
  let cands := candidateIndexes indexes
  (tableOIDKeys cands).flatMap fun t =>
    let grp := tableGroup cands t
    grp.filterMap fun ind1 =>
      (grp.find? fun ind2 => ind1.1 != ind2.1 && isRedundantIndex ind1.2 ind2.2).map
        fun ind2 => (ind1, ind2)

/-- The comparator of the `sort.Slice` call in `getRelevantUnusedIndexes`
(pprint.go): non-primary-key indexes first, then decreasing size. -/
def relevantUnusedLess (i j : Index) : Bool :=
  if i.isPrimary != j.isPrimary then j.isPrimary else decide (i.size > j.size)

/-- Core of `getRelevantUnusedIndexes` (pprint.go): the relevance filter
(the Go `switch`: drop unique-non-primary kind, drop below the minimum
size, drop below the minimum row count), then the `sort.Slice` call.  Go's
`sort.Slice` guarantees only that the result is a permutation ordered by
the comparator; it is modelled by insertion sort over the comparator's
non-strict complement, which has exactly that contract. -/
def getRelevantUnusedIndexes (unusedIndexes : List Index)
    (minIndexSize minIndexRowCount : Int) : List Index :=
  let indexes := filterIndexes unusedIndexes fun ind =>
    if ind.Kind == IndexKind.U then false
    else if ind.size < minIndexSize then false
    else if ind.numRows < minIndexRowCount then false
    else true
  List.insertionSort (fun i j => relevantUnusedLess j i = false) indexes

/-- The part of the Go `DB` (main.go) the detectors can reach: the cached
snapshot `db.indexes`.  The connection is out of scope (no I/O here). -/
structure DB where
  indexes : List Index
deriving DecidableEq

/-- `DB.allIndexes` (main.go) on a loaded cache: "the result is cached, but
every call returns a unique slice, so it is safe for the caller to modify".
The returned list is the copied slice; the state comes back explicitly so
that mutation of the cache would be observable. -/
def DB.allIndexes (db : DB) : List Index × DB :=
  (db.indexes, db)

/-- `findDuplicateIndexSets(db)` with the DB state threaded explicitly.
The in-place reordering done by `bisectIndexes` happens on the copied
slice returned by `allIndexes`, never on the cache. -/
def findDuplicateIndexSetsDB (db : DB) : List (List Index) × DB :=
  let r := db.allIndexes
  (findDuplicateIndexSets r.1, r.2)

/-- `findUnusedIndexes(db, cutoff)` with the DB state threaded explicitly. -/
def findUnusedIndexesDB (db : DB) (cutoff : Int) : List Index × DB :=
  let r := db.allIndexes
  (findUnusedIndexes r.1 cutoff, r.2)

/-- `findRedundantIndexPairs(db)` with the DB state threaded explicitly. -/
def findRedundantIndexPairsDB (db : DB) : List ((Nat × Index) × (Nat × Index)) × DB :=
  let r := db.allIndexes
  (findRedundantIndexPairs r.1, r.2)

/-- A baseline descriptor for building concrete test indexes. -/
def idx0 : Index :=
  ⟨0, "", 0, "public", 0, "", 0, false, false, true, true,
   [], [], [], [], "", "", none, 0, 0, 0, 0, 0, 0, 0, 0, []⟩

/-- Two structurally identical indexes with distinct OIDs (duplicates). -/
def dupA : Index := { idx0 with oid := 1, name := "dup_a", tableOID := 9, keys := [1, 2] }

/-- Structural twin of `dupA` under a different OID and name. -/
def dupB : Index := { idx0 with oid := 2, name := "dup_b", tableOID := 9, keys := [1, 2] }

/-- A singleton equivalence class on the same table. -/
def dupC : Index := { idx0 with oid := 3, name := "solo", tableOID := 9, keys := [1] }

/-- Three structurally equal indexes with distinct OIDs, for the
equivalence-relation witness. -/
def eqIdxA : Index := { idx0 with oid := 1, name := "e1", tableOID := 7, keys := [1] }

/-- Second index of the equivalence-relation witness. -/
def eqIdxB : Index := { idx0 with oid := 2, name := "e2", tableOID := 7, keys := [1] }

/-- Third index of the equivalence-relation witness. -/
def eqIdxC : Index := { idx0 with oid := 3, name := "e3", tableOID := 7, keys := [1] }

/-- Shares its OID with `oidTwinB` but differs in table, uniqueness and
predicate: only the OID shortcut can make these equivalent. -/
def oidTwinA : Index := { idx0 with oid := 7, tableOID := 1, isUnique := true, pred := "x > 0" }

/-- Companion of `oidTwinA` (same OID, different everything else). -/
def oidTwinB : Index := { idx0 with oid := 7, tableOID := 2, isUnique := false, pred := "" }

/-- Non-unique index on attrs ["x"]: subsumed by `redB`. -/
def redA : Index := { idx0 with oid := 11, name := "r_a", tableOID := 5, keys := [1], attrs := ["x"] }

/-- Non-unique index on attrs ["x", "y"]: subsumes `redA`. -/
def redB : Index := { idx0 with oid := 12, name := "r_b", tableOID := 5, keys := [1, 2], attrs := ["x", "y"] }

/-- Unique index on attrs ["x"]: prefix-related to `redB` but excluded. -/
def redU : Index := { idx0 with oid := 13, name := "r_u", tableOID := 5, isUnique := true, keys := [1], attrs := ["x"] }

/-- Index scanned exactly 10 times (at the cutoff boundary). -/
def scanTen : Index := { idx0 with oid := 41, name := "s10", numScans := 10 }

/-- Index scanned 11 times (just above the cutoff boundary). -/
def scanEleven : Index := { idx0 with oid := 42, name := "s11", numScans := 11 }

/-- Malformed descriptor: `numColumns = 3` but only one attribute. -/
def malformedIdx : Index :=
  { idx0 with
    oid := 31
    name := "bad"
    tableName := "t"
    tableOID := 6
    numColumns := 3
    keys := [1]
    attrs := ["x"] }

/-- Well-formed two-column companion of `malformedIdx` on the same table. -/
def wideIdx : Index :=
  { idx0 with
    oid := 32
    name := "wide"
    tableName := "t"
    tableOID := 6
    numColumns := 2
    keys := [1, 2]
    attrs := ["x", "y"] }

/-- Non-primary-key unused index of 5 MiB. -/
def relA : Index := { idx0 with oid := 21, name := "A", size := 5 * 1048576, numRows := 100 }

/-- Non-primary-key unused index of 50 MiB. -/
def relB : Index := { idx0 with oid := 22, name := "B", size := 50 * 1048576, numRows := 100 }

/-- Primary-key unused index of 100 MiB. -/
def relC : Index :=
  { idx0 with
    oid := 23
    name := "C"
    isPrimary := true
    isUnique := true
    size := 100 * 1048576
    numRows := 100 }

/-- Lead index of a duplicate set on table "a". -/
def leadOnA : Index := { idx0 with oid := 51, name := "ia", tableName := "a" }

/-- Lead index of a duplicate set on table "b". -/
def leadOnB : Index := { idx0 with oid := 52, name := "ib", tableName := "b" }

/-- `vecEqual` decides list equality (same length, equal elementwise). -/
theorem vecEqual_iff {α : Type} [BEq α] [LawfulBEq α] (v r : List α) :
    vecEqual v r = true ↔ v = r := by
  induction v generalizing r with
  | nil => cases r <;> simp [vecEqual]
  | cons a v ih =>
    cases r with
    | nil => simp [vecEqual]
    | cons b t =>
      have step : vecEqual (a :: v) (b :: t) = ((a == b) && vecEqual v t) := by
        by_cases h : v.length = t.length
        · simp [vecEqual, h]
        · simp [vecEqual, h]
      rw [step]
      simp [ih]

/-- Propositional reading of `Index.EquivalentTo`. -/
theorem equivalentTo_iff (v u : Index) :
    v.EquivalentTo u = true ↔
      (v.oid = u.oid ∨
        (v.tableOID = u.tableOID ∧ v.isUnique = u.isUnique ∧ v.keys = u.keys ∧
         v.collations = u.collations ∧ v.classes = u.classes ∧
         v.options = u.options ∧ v.exprs = u.exprs ∧ v.pred = u.pred)) := by
  unfold Index.EquivalentTo
  by_cases h : v.oid = u.oid
  · simp [h]
  · simp [h, vecEqual_iff, and_assoc]

/-- `EquivalentTo` is reflexive (the OID shortcut fires). -/
theorem equivalentTo_refl (v : Index) : v.EquivalentTo v = true := by
  simp [Index.EquivalentTo]

/-- `EquivalentTo` is symmetric, unconditionally. -/
theorem equivalentTo_symm {v u : Index} (h : v.EquivalentTo u = true) :
    u.EquivalentTo v = true := by
  rw [equivalentTo_iff] at h ⊢
  rcases h with h | ⟨h1, h2, h3, h4, h5, h6, h7, h8⟩
  · exact Or.inl h.symm
  · exact Or.inr ⟨h1.symm, h2.symm, h3.symm, h4.symm, h5.symm, h6.symm, h7.symm, h8.symm⟩

/-- `EquivalentTo` is transitive once equal OIDs imply equal descriptors
(the snapshot invariant "oid is unique"). -/
theorem equivalentTo_trans {a b c : Index}
    (hab : a.oid = b.oid → a = b) (hbc : b.oid = c.oid → b = c)
    (h1 : a.EquivalentTo b = true) (h2 : b.EquivalentTo c = true) :
    a.EquivalentTo c = true := by
  rw [equivalentTo_iff] at h1 h2 ⊢
  rcases h1 with h1 | ⟨g1, g2, g3, g4, g5, g6, g7, g8⟩
  · rw [hab h1]; exact h2
  · rcases h2 with h2 | ⟨k1, k2, k3, k4, k5, k6, k7, k8⟩
    · rw [← hbc h2]; exact Or.inr ⟨g1, g2, g3, g4, g5, g6, g7, g8⟩
    · exact Or.inr ⟨g1.trans k1, g2.trans k2, g3.trans k3, g4.trans k4,
        g5.trans k5, g6.trans k6, g7.trans k7, g8.trans k8⟩

/-- The Go append-loop of `filterIndexes` is `List.filter`. -/
theorem filterIndexes_eq_filter (xs : List Index) (p : Index → Bool) :
    filterIndexes xs p = xs.filter p := by
  suffices h : ∀ acc : List Index,
      xs.foldl (fun answer x => if p x then answer ++ [x] else answer) acc = acc ++ xs.filter p by
    simpa using h []
  induction xs with
  | nil => intro acc; simp
  | cons x t ih =>
    intro acc
    by_cases hp : p x
    · simp [hp, ih, List.filter_cons, List.append_assoc]
    · simp [hp, ih, List.filter_cons]

/-- C2: assuming the snapshot invariant that OIDs are unique (equal OIDs
mean the very same descriptor), `EquivalentTo` is reflexive, symmetric and
transitive. -/
theorem equivalentTo_equivalence (a b c : Index)
    (hab : a.oid = b.oid → a = b) (hbc : b.oid = c.oid → b = c) :
    a.EquivalentTo a = true ∧
    (a.EquivalentTo b = true → b.EquivalentTo a = true) ∧
    (a.EquivalentTo b = true → b.EquivalentTo c = true → a.EquivalentTo c = true) :=
  ⟨equivalentTo_refl a, fun h => equivalentTo_symm h,
    fun h1 h2 => equivalentTo_trans hab hbc h1 h2⟩

/-- Witness for C2 at three concrete structurally equal indexes with
pairwise distinct OIDs. -/
theorem equivalentTo_equivalence_witness :
    eqIdxA.EquivalentTo eqIdxA = true ∧
    (eqIdxA.EquivalentTo eqIdxB = true → eqIdxB.EquivalentTo eqIdxA = true) ∧
    (eqIdxA.EquivalentTo eqIdxB = true → eqIdxB.EquivalentTo eqIdxC = true →
      eqIdxA.EquivalentTo eqIdxC = true) :=
  equivalentTo_equivalence eqIdxA eqIdxB eqIdxC (by decide) (by decide)

/-- C10: equal OIDs alone make `EquivalentTo` answer true; none of the
other fields are consulted. -/
theorem equivalentTo_oid_shortcut (a b : Index) (h : a.oid = b.oid) :
    a.EquivalentTo b = true := by
  unfold Index.EquivalentTo
  simp [h]

/-- Witness for C10: two descriptors sharing an OID but differing in table,
uniqueness and predicate are still reported equivalent. -/
theorem equivalentTo_oid_shortcut_witness :
    oidTwinA.oid = oidTwinB.oid ∧ oidTwinA.tableOID ≠ oidTwinB.tableOID ∧
    oidTwinA.pred ≠ oidTwinB.pred ∧ oidTwinA.isUnique ≠ oidTwinB.isUnique ∧
    oidTwinA.EquivalentTo oidTwinB = true :=
  ⟨rfl, by decide, by decide, by decide, equivalentTo_oid_shortcut oidTwinA oidTwinB rfl⟩

/-- C6: for any collection and non-negative cutoff, `findUnusedIndexes`
returns exactly the indexes with `numScans ≤ cutoff` (in input order); the
boundary is inclusive. -/
theorem findUnusedIndexes_spec (indexes : List Index) (cutoff : Int) (_hcut : 0 ≤ cutoff) :
    findUnusedIndexes indexes cutoff =
      indexes.filter (fun ind => decide (ind.numScans ≤ cutoff)) ∧
    ∀ ind, ind ∈ findUnusedIndexes indexes cutoff ↔
      (ind ∈ indexes ∧ ind.numScans ≤ cutoff) := by
  have h := filterIndexes_eq_filter indexes (fun ind => decide (ind.numScans ≤ cutoff))
  refine ⟨h, fun ind => ?_⟩
  rw [findUnusedIndexes, h]
  simp [List.mem_filter]

/-- Witness for C6 at cutoff 10: a 10-scan index is unused, an 11-scan
index is not. -/
theorem findUnusedIndexes_spec_witness :
    scanTen ∈ findUnusedIndexes [scanTen, scanEleven] 10 ∧
    ¬ scanEleven ∈ findUnusedIndexes [scanTen, scanEleven] 10 := by
  have h := findUnusedIndexes_spec [scanTen, scanEleven] 10 (by decide)
  constructor
  · exact (h.2 scanTen).mpr ⟨by decide, by decide⟩
  · intro hmem
    exact absurd ((h.2 scanEleven).mp hmem).2 (by decide)

/-- C8 defect evidence: the cross-set comparator of `sortIndexSetsByName`,
taken verbatim from the source, returns false in both directions for two
duplicate-set leads on tables "a" and "b" (the code tests table-name
equality where a less-than is required, as its own comment "Then sort the
sets by table name" intends).  No comparison sort driven by it can order
sets of different tables by table name. -/
theorem dupSetLess_table_order_defect :
    leadOnA.tableName = "a" ∧ leadOnB.tableName = "b" ∧
    dupSetLess leadOnA leadOnB = false ∧ dupSetLess leadOnB leadOnA = false := by
  refine ⟨rfl, rfl, by decide, by decide⟩

/-- C5 defect evidence: on an input whose first descriptor has
`len(attrs) ≠ numColumns`, every detector returns an ordinary, error-free
result — `findRedundantIndexPairs` even reports the malformed index in a
pair computed from its truncated attribute list.  No
`MalformedIndexDescriptor` check exists anywhere in the code: the
detectors' error returns only propagate snapshot-loading failures. -/
theorem detectors_silent_on_malformed :
    (malformedIdx.attrs.length : Int) ≠ malformedIdx.numColumns ∧
    findDuplicateIndexSets [malformedIdx, wideIdx] = [] ∧
    findUnusedIndexes [malformedIdx, wideIdx] 10 = [malformedIdx, wideIdx] ∧
    findRedundantIndexPairs [malformedIdx, wideIdx] = [((0, malformedIdx), (1, wideIdx))] :=
  ⟨by decide, by decide, by decide, by decide⟩

/-- The fuel-indexed bisection, run with enough fuel, is a partition: the
two sides permute the input, the first side satisfies the predicate, the
second side falsifies it. -/
theorem bisectIndexesAux_spec (p : Index → Bool) :
    ∀ (fuel : Nat) (xs : List Index), xs.length ≤ fuel →
      ((bisectIndexesAux p fuel xs).1 ++ (bisectIndexesAux p fuel xs).2).Perm xs ∧
      (∀ x ∈ (bisectIndexesAux p fuel xs).1, p x = true) ∧
      (∀ x ∈ (bisectIndexesAux p fuel xs).2, p x = false) := by
  intro fuel
  induction fuel with
  | zero =>
    intro xs hlen
    have hx : xs = [] := List.length_eq_zero.mp (Nat.le_zero.mp hlen)
    subst hx
    simp [bisectIndexesAux]
  | succ fuel ih =>
    intro xs hlen
    match xs with
    | [] => simp [bisectIndexesAux]
    | h :: rest =>
      by_cases hp : p h
      · cases rest with
        | nil =>
          simp [bisectIndexesAux, hp]
        | cons r rs =>
          set L := ((r :: rs).getLast (List.cons_ne_nil r rs)) :: (r :: rs).dropLast with hL
          have hrot : L.Perm (r :: rs) := by
            rw [hL]
            have hswap := (List.perm_append_singleton
              ((r :: rs).getLast (List.cons_ne_nil r rs)) (r :: rs).dropLast).symm
            rw [List.dropLast_append_getLast (List.cons_ne_nil r rs)] at hswap
            exact hswap
          have hlen2 : L.length ≤ fuel := by
            rw [hL]
            simp only [List.length_cons, List.length_dropLast] at hlen ⊢
            omega
          obtain ⟨ihp, iht, ihf⟩ := ih L hlen2
          have heq : bisectIndexesAux p (fuel + 1) (h :: r :: rs) =
              ((bisectIndexesAux p fuel L).1 ++ [h], (bisectIndexesAux p fuel L).2) := by
            rw [hL]
            simp [bisectIndexesAux, hp]
          rw [heq]
          refine ⟨?_, ?_, ihf⟩
          · show ((bisectIndexesAux p fuel L).1 ++ [h] ++
              (bisectIndexesAux p fuel L).2).Perm (h :: r :: rs)
            have e1 : (bisectIndexesAux p fuel L).1 ++ [h] ++ (bisectIndexesAux p fuel L).2 =
                (bisectIndexesAux p fuel L).1 ++ h :: (bisectIndexesAux p fuel L).2 := by
              simp
            rw [e1]
            exact List.perm_middle.trans ((ihp.trans hrot).cons h)
          · show ∀ x ∈ (bisectIndexesAux p fuel L).1 ++ [h], p x = true
            intro x hx
            rcases List.mem_append.mp hx with hx | hx
            · exact iht x hx
            · rw [List.mem_singleton.mp hx]; exact hp
      · have hlen2 : rest.length ≤ fuel := by
          simp only [List.length_cons] at hlen; omega
        obtain ⟨ihp, iht, ihf⟩ := ih rest hlen2
        have heq : bisectIndexesAux p (fuel + 1) (h :: rest) =
            ((bisectIndexesAux p fuel rest).1, h :: (bisectIndexesAux p fuel rest).2) := by
          cases rest <;> simp [bisectIndexesAux, hp]
        rw [heq]
        refine ⟨List.perm_middle.trans (ihp.cons h), iht, ?_⟩
        intro x hx
        rcases List.mem_cons.mp hx with hx | hx
        · rw [hx]; simpa using hp
        · exact ihf x hx

/-- Partition property of `bisectIndexes`. -/
theorem bisectIndexes_spec (xs : List Index) (p : Index → Bool) :
    ((bisectIndexes xs p).1 ++ (bisectIndexes xs p).2).Perm xs ∧
    (∀ x ∈ (bisectIndexes xs p).1, p x = true) ∧
    (∀ x ∈ (bisectIndexes xs p).2, p x = false) :=
  bisectIndexesAux_spec p xs.length xs (Nat.le_refl _)

/-- When the head satisfies the predicate, the "false" side of the
bisection is strictly shorter than the input. -/
theorem bisectIndexes_rest_length {x : Index} {t : List Index} {p : Index → Bool}
    (hp : p x = true) : (bisectIndexes (x :: t) p).2.length ≤ t.length := by
  obtain ⟨hperm, _htrue, hfalse⟩ := bisectIndexes_spec (x :: t) p
  have hlen : (bisectIndexes (x :: t) p).1.length + (bisectIndexes (x :: t) p).2.length =
      t.length + 1 := by
    have := hperm.length_eq
    simpa using this
  have hx : x ∈ (bisectIndexes (x :: t) p).1 ++ (bisectIndexes (x :: t) p).2 :=
    hperm.mem_iff.mpr (by simp)
  rcases List.mem_append.mp hx with hmem | hmem
  · have h1 : 0 < (bisectIndexes (x :: t) p).1.length :=
      List.length_pos.mpr (List.ne_nil_of_mem hmem)
    omega
  · exact absurd (hfalse x hmem) (by simp [hp])

/-- Every member of every emitted duplicate set comes from the input. -/
theorem findDuplicateIndexSetsAux_subset :
    ∀ (fuel : Nat) (xs : List Index), ∀ s ∈ findDuplicateIndexSetsAux fuel xs, ∀ a ∈ s, a ∈ xs := by
  intro fuel
  induction fuel with
  | zero =>
    intro xs s hs
    cases xs with
    | nil => simp [findDuplicateIndexSetsAux] at hs
    | cons p t => simp [findDuplicateIndexSetsAux] at hs
  | succ fuel ih =>
    intro xs s hs a ha
    cases xs with
    | nil => simp [findDuplicateIndexSetsAux] at hs
    | cons p t =>
      obtain ⟨hperm, _hts, _hfs⟩ := bisectIndexes_spec (p :: t) p.EquivalentTo
      have hunfold : findDuplicateIndexSetsAux (fuel + 1) (p :: t) =
          (if 2 ≤ (bisectIndexes (p :: t) p.EquivalentTo).1.length
            then [(bisectIndexes (p :: t) p.EquivalentTo).1] else []) ++
          findDuplicateIndexSetsAux fuel (bisectIndexes (p :: t) p.EquivalentTo).2 := rfl
      rw [hunfold] at hs
      rcases List.mem_append.mp hs with h1 | h1
      · by_cases h2 : 2 ≤ (bisectIndexes (p :: t) p.EquivalentTo).1.length
        · rw [if_pos h2] at h1
          rw [List.mem_singleton.mp h1] at ha
          exact hperm.mem_iff.mp (List.mem_append.mpr (Or.inl ha))
        · rw [if_neg h2] at h1
          cases h1
      · have ha2 := ih _ s h1 a ha
        exact hperm.mem_iff.mp (List.mem_append.mpr (Or.inr ha2))

/-- Two distinct members force a list to have length at least two. -/
theorem two_le_length_of_mem {a b : Index} {l : List Index}
    (ha : a ∈ l) (hb : b ∈ l) (hne : a ≠ b) : 2 ≤ l.length := by
  cases l with
  | nil => cases ha
  | cons x t =>
    cases t with
    | nil =>
      rw [List.mem_singleton] at ha hb
      exact absurd (ha.trans hb.symm) hne
    | cons y u => simp only [List.length_cons]; omega

/-- One unfolding step of the duplicate-set loop, stated over an arbitrary
bisection result and recursion outcome. -/
theorem dupStep (p : Index) (t ts fs : List Index) (rec : List (List Index))
    (hperm : (ts ++ fs).Perm (p :: t))
    (hts : ∀ x ∈ ts, p.EquivalentTo x = true)
    (hfs : ∀ x ∈ fs, p.EquivalentTo x = false)
    (hinj : ∀ a ∈ p :: t, ∀ b ∈ p :: t, a.oid = b.oid → a = b)
    (hrecsub : ∀ s ∈ rec, ∀ a ∈ s, a ∈ fs)
    (ih1 : ∀ s ∈ rec, 2 ≤ s.length)
    (ih2 : ∀ s ∈ rec, ∀ a ∈ s, ∀ b ∈ s, a.EquivalentTo b = true)
    (ih3 : ∀ s1 ∈ rec, ∀ s2 ∈ rec, ∀ a ∈ s1, ∀ b ∈ s2, a.EquivalentTo b = true → s1 = s2)
    (ih4 : ∀ a ∈ fs, ∀ b ∈ fs, a ≠ b → a.EquivalentTo b = true → ∃ s ∈ rec, a ∈ s ∧ b ∈ s) :
    (∀ s ∈ (if 2 ≤ ts.length then [ts] else []) ++ rec, 2 ≤ s.length) ∧
    (∀ s ∈ (if 2 ≤ ts.length then [ts] else []) ++ rec,
      ∀ a ∈ s, ∀ b ∈ s, a.EquivalentTo b = true) ∧
    (∀ s1 ∈ (if 2 ≤ ts.length then [ts] else []) ++ rec,
      ∀ s2 ∈ (if 2 ≤ ts.length then [ts] else []) ++ rec,
      ∀ a ∈ s1, ∀ b ∈ s2, a.EquivalentTo b = true → s1 = s2) ∧
    (∀ a ∈ p :: t, ∀ b ∈ p :: t, a ≠ b → a.EquivalentTo b = true →
      ∃ s ∈ (if 2 ≤ ts.length then [ts] else []) ++ rec, a ∈ s ∧ b ∈ s) := by
  have hmem_iff : ∀ x, x ∈ p :: t ↔ (x ∈ ts ∨ x ∈ fs) := by
    intro x
    rw [← hperm.mem_iff, List.mem_append]
  have hts_sub : ∀ x ∈ ts, x ∈ p :: t := fun x hx => (hmem_iff x).mpr (Or.inl hx)
  have hfs_sub : ∀ x ∈ fs, x ∈ p :: t := fun x hx => (hmem_iff x).mpr (Or.inr hx)
  have hp_mem : p ∈ p :: t := List.mem_cons_self p t
  have hset_mem : ∀ s ∈ (if 2 ≤ ts.length then [ts] else []) ++ rec,
      (2 ≤ ts.length ∧ s = ts) ∨ s ∈ rec := by
    intro s hs
    rcases List.mem_append.mp hs with h | h
    · by_cases h2 : 2 ≤ ts.length
      · rw [if_pos h2] at h
        exact Or.inl ⟨h2, List.mem_singleton.mp h⟩
      · rw [if_neg h2] at h
        cases h
    · exact Or.inr h
  have hts_equiv : ∀ a ∈ ts, ∀ b ∈ ts, a.EquivalentTo b = true := by
    intro a ha b hb
    exact equivalentTo_trans (hinj a (hts_sub a ha) p hp_mem) (hinj p hp_mem b (hts_sub b hb))
      (equivalentTo_symm (hts a ha)) (hts b hb)
  have hcross : ∀ a ∈ ts, ∀ b ∈ p :: t, a.EquivalentTo b = true → b ∉ fs := by
    intro a ha b hb hE hbfs
    have hpb : p.EquivalentTo b = true :=
      equivalentTo_trans (hinj p hp_mem a (hts_sub a ha)) (hinj a (hts_sub a ha) b hb)
        (hts a ha) hE
    rw [hfs b hbfs] at hpb
    cases hpb
  refine ⟨?_, ?_, ?_, ?_⟩
  · intro s hs
    rcases hset_mem s hs with ⟨h2, rfl⟩ | h
    · exact h2
    · exact ih1 s h
  · intro s hs
    rcases hset_mem s hs with ⟨_h2, rfl⟩ | h
    · exact hts_equiv
    · exact ih2 s h
  · intro s1 hs1 s2 hs2 a ha b hb hE
    rcases hset_mem s1 hs1 with ⟨_h2, rfl⟩ | h1
    · rcases hset_mem s2 hs2 with ⟨_h2b, rfl⟩ | h2
      · rfl
      · exact absurd (hrecsub s2 h2 b hb) (hcross a ha b (hfs_sub b (hrecsub s2 h2 b hb)) hE)
    · rcases hset_mem s2 hs2 with ⟨_h2b, rfl⟩ | h2
      · exact absurd (hrecsub s1 h1 a ha)
          (hcross b hb a (hfs_sub a (hrecsub s1 h1 a ha)) (equivalentTo_symm hE))
      · exact ih3 s1 h1 s2 h2 a ha b hb hE
  · intro a ha b hb hne hE
    by_cases hEa : p.EquivalentTo a = true
    · have hEb : p.EquivalentTo b = true :=
        equivalentTo_trans (hinj p hp_mem a ha) (hinj a ha b hb) hEa hE
      have hats : a ∈ ts := by
        rcases (hmem_iff a).mp ha with h | h
        · exact h
        · rw [hfs a h] at hEa
          cases hEa
      have hbts : b ∈ ts := by
        rcases (hmem_iff b).mp hb with h | h
        · exact h
        · rw [hfs b h] at hEb
          cases hEb
      have h2 : 2 ≤ ts.length := two_le_length_of_mem hats hbts hne
      refine ⟨ts, List.mem_append.mpr (Or.inl ?_), hats, hbts⟩
      rw [if_pos h2]
      exact List.mem_singleton.mpr rfl
    · have hEb : ¬ p.EquivalentTo b = true := by
        intro hpb
        exact hEa (equivalentTo_trans (hinj p hp_mem b hb) (hinj b hb a ha) hpb
          (equivalentTo_symm hE))
      have hafs : a ∈ fs := by
        rcases (hmem_iff a).mp ha with h | h
        · exact absurd (hts a h) hEa
        · exact h
      have hbfs : b ∈ fs := by
        rcases (hmem_iff b).mp hb with h | h
        · exact absurd (hts b h) hEb
        · exact h
      obtain ⟨s, hsrec, has, hbs⟩ := ih4 a hafs b hbfs hne hE
      exact ⟨s, List.mem_append.mpr (Or.inr hsrec), has, hbs⟩

/-- The fuel-indexed duplicate-set loop, run with enough fuel over a
snapshot with unique OIDs, emits a partition into equivalence classes of
size at least two. -/
theorem findDuplicateIndexSetsAux_spec :
    ∀ (fuel : Nat) (xs : List Index), xs.length ≤ fuel →
      (∀ a ∈ xs, ∀ b ∈ xs, a.oid = b.oid → a = b) →
      (∀ s ∈ findDuplicateIndexSetsAux fuel xs, 2 ≤ s.length) ∧
      (∀ s ∈ findDuplicateIndexSetsAux fuel xs, ∀ a ∈ s, ∀ b ∈ s, a.EquivalentTo b = true) ∧
      (∀ s1 ∈ findDuplicateIndexSetsAux fuel xs, ∀ s2 ∈ findDuplicateIndexSetsAux fuel xs,
        ∀ a ∈ s1, ∀ b ∈ s2, a.EquivalentTo b = true → s1 = s2) ∧
      (∀ a ∈ xs, ∀ b ∈ xs, a ≠ b → a.EquivalentTo b = true →
        ∃ s ∈ findDuplicateIndexSetsAux fuel xs, a ∈ s ∧ b ∈ s) := by
  intro fuel
  induction fuel with
  | zero =>
    intro xs hlen _hinj
    have hx : xs = [] := List.length_eq_zero.mp (Nat.le_zero.mp hlen)
    subst hx
    simp [findDuplicateIndexSetsAux]
  | succ fuel ih =>
    intro xs hlen hinj
    cases xs with
    | nil => simp [findDuplicateIndexSetsAux]
    | cons p t =>
      obtain ⟨hperm, hts, hfs⟩ := bisectIndexes_spec (p :: t) p.EquivalentTo
      have hfs_len : (bisectIndexes (p :: t) p.EquivalentTo).2.length ≤ fuel := by
        have := bisectIndexes_rest_length (x := p) (t := t) (equivalentTo_refl p)
        simp only [List.length_cons] at hlen
        omega
      have hinj_fs : ∀ a ∈ (bisectIndexes (p :: t) p.EquivalentTo).2,
          ∀ b ∈ (bisectIndexes (p :: t) p.EquivalentTo).2, a.oid = b.oid → a = b := by
        intro a ha b hb
        exact hinj a (hperm.mem_iff.mp (List.mem_append.mpr (Or.inr ha)))
          b (hperm.mem_iff.mp (List.mem_append.mpr (Or.inr hb)))
      obtain ⟨ih1, ih2, ih3, ih4⟩ := ih _ hfs_len hinj_fs
      have hunfold : findDuplicateIndexSetsAux (fuel + 1) (p :: t) =
          (if 2 ≤ (bisectIndexes (p :: t) p.EquivalentTo).1.length
            then [(bisectIndexes (p :: t) p.EquivalentTo).1] else []) ++
          findDuplicateIndexSetsAux fuel (bisectIndexes (p :: t) p.EquivalentTo).2 := rfl
      rw [hunfold]
      exact dupStep p t _ _ _ hperm hts hfs hinj
        (fun s hs a ha => findDuplicateIndexSetsAux_subset fuel _ s hs a ha) ih1 ih2 ih3 ih4

/-- C1: on any snapshot whose OIDs are unique (the data-model invariant),
the duplicate-set detector emits sets of size at least two whose members
are pairwise structurally equivalent; distinct emitted sets are disjoint,
two equivalent members never land in different sets, and any two distinct
equivalent input indexes land together in some emitted set (only singleton
classes are dropped). -/
theorem findDuplicateIndexSets_partition (indexes : List Index)
    (hinj : ∀ a ∈ indexes, ∀ b ∈ indexes, a.oid = b.oid → a = b) :
    (∀ s ∈ findDuplicateIndexSets indexes, 2 ≤ s.length) ∧
    (∀ s ∈ findDuplicateIndexSets indexes, ∀ a ∈ s, ∀ b ∈ s, a.EquivalentTo b = true) ∧
    (∀ s1 ∈ findDuplicateIndexSets indexes, ∀ s2 ∈ findDuplicateIndexSets indexes,
      s1 ≠ s2 → ∀ x ∈ s1, x ∉ s2) ∧
    (∀ s1 ∈ findDuplicateIndexSets indexes, ∀ s2 ∈ findDuplicateIndexSets indexes,
      ∀ a ∈ s1, ∀ b ∈ s2, a.EquivalentTo b = true → s1 = s2) ∧
    (∀ a ∈ indexes, ∀ b ∈ indexes, a ≠ b → a.EquivalentTo b = true →
      ∃ s ∈ findDuplicateIndexSets indexes, a ∈ s ∧ b ∈ s) := by
  obtain ⟨h1, h2, h3, h4⟩ :=
    findDuplicateIndexSetsAux_spec indexes.length indexes (Nat.le_refl _) hinj
  refine ⟨h1, h2, ?_, h3, h4⟩
  intro s1 hs1 s2 hs2 hne x hx1 hx2
  exact hne (h3 s1 hs1 s2 hs2 x hx1 x hx2 (equivalentTo_refl x))

/-- Witness for C1 on the spec's scenario 1: two structural twins and one
singleton; the twins form the only set, of size two, pairwise equivalent. -/
theorem findDuplicateIndexSets_partition_witness :
    2 ≤ ([dupB, dupA] : List Index).length ∧ dupB.EquivalentTo dupA = true := by
  have h := findDuplicateIndexSets_partition [dupA, dupB, dupC] (by decide)
  have hs : [dupB, dupA] ∈ findDuplicateIndexSets [dupA, dupB, dupC] := by decide
  exact ⟨h.1 _ hs, h.2.1 _ hs dupB (by decide) dupA (by decide)⟩

/-- An all-equal zip against a list at least as long means list prefix. -/
theorem zip_all_eq_iff_leading {α : Type} [BEq α] [LawfulBEq α] (l1 : List α) :
    ∀ l2 : List α, l1.length ≤ l2.length →
      (((l1.zip l2).all fun q => q.1 == q.2) = true ↔ l1 <+: l2) := by
  induction l1 with
  | nil => intro l2 _h; simp
  | cons a t ih =>
    intro l2 h
    cases l2 with
    | nil => simp at h
    | cons b t2 =>
      simp only [List.zip_cons_cons, List.all_cons, Bool.and_eq_true, beq_iff_eq,
        List.cons_prefix_cons]
      rw [ih t2 (by simpa using h)]

/-- `prefixOf` decides the strict-prefix relation on attribute lists. -/
theorem prefixOf_iff (a b : Index) :
    prefixOf a b = true ↔ (a.attrs.length < b.attrs.length ∧ a.attrs <+: b.attrs) := by
  show (if a.attrs.length ≥ b.attrs.length then false
    else (a.attrs.zip b.attrs).all fun q => q.1 == q.2) = true ↔ _
  by_cases h : a.attrs.length ≥ b.attrs.length
  · rw [if_pos h]
    constructor
    · intro hc; cases hc
    · rintro ⟨hlt, _⟩; omega
  · rw [if_neg h]
    push_neg at h
    rw [zip_all_eq_iff_leading _ _ (Nat.le_of_lt h)]
    exact ⟨fun hp => ⟨h, hp⟩, fun hp => hp.2⟩

/-- Candidates carry neither the primary nor the unique flag. -/
theorem candidateIndexes_flags {indexes : List Index} {q : Nat × Index}
    (h : q ∈ candidateIndexes indexes) : q.2.isPrimary = false ∧ q.2.isUnique = false := by
  have h2 := (List.mem_filter.mp h).2
  simp only [Bool.and_eq_true, Bool.not_eq_true'] at h2
  exact h2

/-- The descriptor of each candidate is an element of the input. -/
theorem candidateIndexes_mem_src {indexes : List Index} {q : Nat × Index}
    (h : q ∈ candidateIndexes indexes) : q.2 ∈ indexes := by
  have h1 := (List.mem_filter.mp h).1
  obtain ⟨i, x⟩ := q
  obtain ⟨hlt, hx⟩ := List.mem_enum h1
  show x ∈ indexes
  rw [hx]
  exact List.getElem_mem hlt

/-- The position tags of the candidates are pairwise distinct. -/
theorem candidateIndexes_tags_nodup (indexes : List Index) :
    ((candidateIndexes indexes).map Prod.fst).Nodup :=
  List.Nodup.sublist ((List.filter_sublist _).map Prod.fst) (List.nodup_enum_map_fst indexes)

/-- The position tags within a table group are pairwise distinct. -/
theorem tableGroup_tags_nodup (indexes : List Index) (t : Nat) :
    ((tableGroup (candidateIndexes indexes) t).map Prod.fst).Nodup :=
  List.Nodup.sublist ((List.filter_sublist _).map Prod.fst) (candidateIndexes_tags_nodup indexes)

/-- Membership in a table group. -/
theorem tableGroup_mem {cands : List (Nat × Index)} {t : Nat} {q : Nat × Index}
    (h : q ∈ tableGroup cands t) : q ∈ cands ∧ q.2.tableOID = t := by
  have h2 := List.mem_filter.mp h
  exact ⟨h2.1, by simpa using h2.2⟩

/-- The key list built by `tableOIDKeys` has no duplicates. -/
theorem tableOIDKeys_nodup (cands : List (Nat × Index)) : (tableOIDKeys cands).Nodup := by
  suffices h : ∀ acc : List Nat, acc.Nodup →
      (cands.foldl (fun ks q => if ks.contains q.2.tableOID then ks else ks ++ [q.2.tableOID])
        acc).Nodup from h [] List.nodup_nil
  induction cands with
  | nil => intro acc hacc; exact hacc
  | cons c t ih =>
    intro acc hacc
    simp only [List.foldl_cons]
    by_cases hc : acc.contains c.2.tableOID
    · rw [if_pos hc]
      exact ih acc hacc
    · rw [if_neg hc]
      refine ih _ (List.nodup_append.mpr ⟨hacc, List.nodup_singleton _, ?_⟩)
      intro x hx hy
      rw [List.mem_singleton] at hy
      subst hy
      exact hc (List.elem_iff.mpr hx)

/-- Analysis of one candidate's search inside its group: the emitted pair
keeps the candidate first, picks its partner from the group, and the
partner passed the pointer-inequality and redundancy tests. -/
theorem redundantChoice {grp : List (Nat × Index)} {a : Nat × Index}
    {pr : (Nat × Index) × (Nat × Index)}
    (h : ((grp.find? fun ind2 => a.1 != ind2.1 && isRedundantIndex a.2 ind2.2).map
      fun ind2 => (a, ind2)) = some pr) :
    pr.1 = a ∧ pr.2 ∈ grp ∧ a.1 ≠ pr.2.1 ∧ isRedundantIndex a.2 pr.2.2 = true := by
  cases hf : grp.find? (fun ind2 => a.1 != ind2.1 && isRedundantIndex a.2 ind2.2) with
  | none => rw [hf] at h; cases h
  | some c =>
    rw [hf] at h
    simp only [Option.map_some', Option.some.injEq] at h
    subst h
    have hcond := List.find?_some hf
    rw [Bool.and_eq_true] at hcond
    exact ⟨rfl, List.mem_of_find?_eq_some hf, by simpa using hcond.1, hcond.2⟩

/-- Soundness facts for every emitted redundant pair. -/
theorem findRedundantIndexPairs_mem {indexes : List Index}
    {pr : (Nat × Index) × (Nat × Index)} (h : pr ∈ findRedundantIndexPairs indexes) :
    pr.1 ∈ candidateIndexes indexes ∧ pr.2 ∈ candidateIndexes indexes ∧
    pr.1.2.tableOID = pr.2.2.tableOID ∧ pr.1.1 ≠ pr.2.1 ∧
    isRedundantIndex pr.1.2 pr.2.2 = true := by
  have hdef : findRedundantIndexPairs indexes =
      (tableOIDKeys (candidateIndexes indexes)).flatMap (fun t =>
        (tableGroup (candidateIndexes indexes) t).filterMap fun ind1 =>
          ((tableGroup (candidateIndexes indexes) t).find? fun ind2 =>
            ind1.1 != ind2.1 && isRedundantIndex ind1.2 ind2.2).map fun ind2 => (ind1, ind2)) :=
    rfl
  rw [hdef, List.mem_flatMap] at h
  obtain ⟨t, _ht, hpr⟩ := h
  rw [List.mem_filterMap] at hpr
  obtain ⟨a, ha, hsome⟩ := hpr
  obtain ⟨h1, h2, h3, h4⟩ := redundantChoice hsome
  obtain ⟨ha1, ha2⟩ := tableGroup_mem ha
  obtain ⟨hb1, hb2⟩ := tableGroup_mem h2
  subst h1
  exact ⟨ha1, hb1, ha2.trans hb2.symm, h3, h4⟩

/-- Distinctness of first components across all emitted pairs: each
candidate is the subsumed half of at most one pair. -/
theorem findRedundantIndexPairs_firsts (indexes : List Index) :
    (findRedundantIndexPairs indexes).Pairwise (fun pr1 pr2 => pr1.1.1 ≠ pr2.1.1) := by
  have hdef : findRedundantIndexPairs indexes =
      (tableOIDKeys (candidateIndexes indexes)).flatMap (fun t =>
        (tableGroup (candidateIndexes indexes) t).filterMap fun ind1 =>
          ((tableGroup (candidateIndexes indexes) t).find? fun ind2 =>
            ind1.1 != ind2.1 && isRedundantIndex ind1.2 ind2.2).map fun ind2 => (ind1, ind2)) :=
    rfl
  rw [hdef, List.pairwise_flatMap]
  constructor
  · intro t _ht
    rw [List.pairwise_filterMap]
    have hpw : (tableGroup (candidateIndexes indexes) t).Pairwise
        (fun q1 q2 => q1.1 ≠ q2.1) :=
      List.pairwise_map.mp (tableGroup_tags_nodup indexes t)
    refine hpw.imp ?_
    intro a a' hne b hb b' hb'
    rw [Option.mem_def] at hb hb'
    obtain ⟨hb1, _, _, _⟩ := redundantChoice hb
    obtain ⟨hb'1, _, _, _⟩ := redundantChoice hb'
    rw [hb1, hb'1]
    exact hne
  · have hnd : (tableOIDKeys (candidateIndexes indexes)).Pairwise (fun t1 t2 => t1 ≠ t2) :=
      tableOIDKeys_nodup (candidateIndexes indexes)
    refine hnd.imp ?_
    intro t1 t2 hne x hx y hy
    rw [List.mem_filterMap] at hx hy
    obtain ⟨a, ha, hsome⟩ := hx
    obtain ⟨a', ha', hsome'⟩ := hy
    obtain ⟨hx1, _, _, _⟩ := redundantChoice hsome
    obtain ⟨hy1, _, _, _⟩ := redundantChoice hsome'
    rw [hx1, hy1]
    obtain ⟨hac, hat⟩ := tableGroup_mem ha
    obtain ⟨hac', hat'⟩ := tableGroup_mem ha'
    intro heq
    have : a = a' := List.inj_on_of_nodup_map (candidateIndexes_tags_nodup indexes) hac hac' heq
    subst this
    exact hne (hat.symm.trans hat')

/-- C3: every emitted pair joins two distinct indexes of one table with
equal uniqueness flags, equal predicates, and a strictly shorter first
attribute list that is a prefix of the second; and no index is the
subsumed (first) half of two different pairs. -/
theorem findRedundantIndexPairs_spec (indexes : List Index) :
    (∀ pr ∈ findRedundantIndexPairs indexes,
      pr.1.1 ≠ pr.2.1 ∧
      pr.1.2.tableOID = pr.2.2.tableOID ∧
      pr.1.2.isUnique = pr.2.2.isUnique ∧
      pr.1.2.pred = pr.2.2.pred ∧
      pr.1.2.attrs.length < pr.2.2.attrs.length ∧
      pr.1.2.attrs <+: pr.2.2.attrs) ∧
    (findRedundantIndexPairs indexes).Pairwise (fun pr1 pr2 => pr1.1.1 ≠ pr2.1.1) := by
  refine ⟨?_, findRedundantIndexPairs_firsts indexes⟩
  intro pr hpr
  obtain ⟨_h1, _h2, h3, h4, h5⟩ := findRedundantIndexPairs_mem hpr
  rw [isRedundantIndex, Bool.and_eq_true, Bool.and_eq_true] at h5
  obtain ⟨⟨hu, hp⟩, hpre⟩ := h5
  rw [prefixOf_iff] at hpre
  exact ⟨h4, h3, by simpa using hu, by simpa using hp, hpre.1, hpre.2⟩

/-- Witness for C3 on the spec's scenario 2: ["x"] is reported against
["x", "y"], and the emitted pair satisfies every clause. -/
theorem findRedundantIndexPairs_spec_witness :
    ((0, redA), (1, redB)).1.1 ≠ ((0, redA), (1, redB)).2.1 ∧
    ((0, redA), (1, redB)).1.2.tableOID = ((0, redA), (1, redB)).2.2.tableOID ∧
    ((0, redA), (1, redB)).1.2.isUnique = ((0, redA), (1, redB)).2.2.isUnique ∧
    ((0, redA), (1, redB)).1.2.pred = ((0, redA), (1, redB)).2.2.pred ∧
    ((0, redA), (1, redB)).1.2.attrs.length < ((0, redA), (1, redB)).2.2.attrs.length ∧
    ((0, redA), (1, redB)).1.2.attrs <+: ((0, redA), (1, redB)).2.2.attrs :=
  (findRedundantIndexPairs_spec [redA, redB, redU]).1 ((0, redA), (1, redB)) (by decide)

/-- C4: an index carrying the primary or the unique flag never appears on
either side of an emitted pair, whatever prefix relations it enjoys. -/
theorem findRedundantIndexPairs_excludes (indexes : List Index) (ind : Index)
    (hflag : ind.isPrimary = true ∨ ind.isUnique = true) :
    ∀ pr ∈ findRedundantIndexPairs indexes, pr.1.2 ≠ ind ∧ pr.2.2 ≠ ind := by
  intro pr hpr
  obtain ⟨h1, h2, _, _, _⟩ := findRedundantIndexPairs_mem hpr
  obtain ⟨hp1, hu1⟩ := candidateIndexes_flags h1
  obtain ⟨hp2, hu2⟩ := candidateIndexes_flags h2
  constructor
  · intro he
    rw [he] at hp1 hu1
    rcases hflag with hf | hf
    · rw [hf] at hp1; cases hp1
    · rw [hf] at hu1; cases hu1
  · intro he
    rw [he] at hp2 hu2
    rcases hflag with hf | hf
    · rw [hf] at hp2; cases hp2
    · rw [hf] at hu2; cases hu2

/-- Witness for C4: the unique index `redU` is a strict attribute prefix of
`redB` on the same table, yet the only emitted pair avoids it on both
sides. -/
theorem findRedundantIndexPairs_excludes_witness :
    ((0, redA), (1, redB)).1.2 ≠ redU ∧ ((0, redA), (1, redB)).2.2 ≠ redU :=
  findRedundantIndexPairs_excludes [redA, redB, redU] redU (Or.inr (by decide))
    ((0, redA), (1, redB)) (by decide)

/-- C9: threading the DB state through each detector, the cached snapshot
comes back unchanged — same elements, same order — because `allIndexes`
hands each detector a fresh copy of the slice (the in-place partitioning
of `bisectIndexes` happens on that copy) and no code path assigns to an
`Index` field.  Moreover every descriptor a detector reports is, as a
value, an element of the snapshot: the detectors return the descriptors
themselves, not modified copies. -/
theorem detectors_preserve_db (db : DB) (cutoff : Int) :
    (findDuplicateIndexSetsDB db).2 = db ∧
    (findUnusedIndexesDB db cutoff).2 = db ∧
    (findRedundantIndexPairsDB db).2 = db ∧
    (∀ s ∈ (findDuplicateIndexSetsDB db).1, ∀ a ∈ s, a ∈ db.indexes) ∧
    (∀ a ∈ (findUnusedIndexesDB db cutoff).1, a ∈ db.indexes) ∧
    (∀ pr ∈ (findRedundantIndexPairsDB db).1, pr.1.2 ∈ db.indexes ∧ pr.2.2 ∈ db.indexes) := by
  refine ⟨rfl, rfl, rfl, ?_, ?_, ?_⟩
  · intro s hs a ha
    exact findDuplicateIndexSetsAux_subset db.indexes.length db.indexes s hs a ha
  · intro a ha
    rw [show (findUnusedIndexesDB db cutoff).1 = findUnusedIndexes db.indexes cutoff from rfl,
      findUnusedIndexes, filterIndexes_eq_filter] at ha
    exact (List.mem_filter.mp ha).1
  · intro pr hpr
    obtain ⟨h1, h2, _, _, _⟩ := findRedundantIndexPairs_mem hpr
    exact ⟨candidateIndexes_mem_src h1, candidateIndexes_mem_src h2⟩

/-- `Kind() == uniqueIndex` means unique-but-not-primary. -/
theorem kind_eq_U_iff (ind : Index) :
    (ind.Kind == IndexKind.U) = true ↔ (ind.isUnique = true ∧ ind.isPrimary = false) := by
  cases hp : ind.isPrimary <;> cases hu : ind.isUnique <;>
    simp [Index.Kind, hp, hu]

/-- Propositional reading of the relevance filter's Go switch. -/
theorem relevantKeep_iff (minSize minRows : Int) (ind : Index) :
    (if ind.Kind == IndexKind.U then false
     else if ind.size < minSize then false
     else if ind.numRows < minRows then false
     else true) = true ↔
      (¬(ind.isUnique = true ∧ ind.isPrimary = false) ∧
       minSize ≤ ind.size ∧ minRows ≤ ind.numRows) := by
  by_cases h1 : (ind.Kind == IndexKind.U) = true
  · rw [if_pos h1]
    have hu := (kind_eq_U_iff ind).mp h1
    constructor
    · intro hc; cases hc
    · rintro ⟨hn, _, _⟩; exact absurd hu hn
  · rw [if_neg h1]
    by_cases h2 : ind.size < minSize
    · rw [if_pos h2]
      constructor
      · intro hc; cases hc
      · rintro ⟨_, hs, _⟩; omega
    · rw [if_neg h2]
      by_cases h3 : ind.numRows < minRows
      · rw [if_pos h3]
        constructor
        · intro hc; cases hc
        · rintro ⟨_, _, hr⟩; omega
      · rw [if_neg h3]
        constructor
        · intro _
          exact ⟨fun hu => h1 ((kind_eq_U_iff ind).mpr hu),
            Int.not_lt.mp h2, Int.not_lt.mp h3⟩
        · intro _; rfl

/-- The sort comparator, negated, read as a proposition: the earlier index
is non-primary while the later is primary, or both flags agree and sizes
are non-increasing. -/
theorem relevantUnusedLess_false_iff (a b : Index) :
    relevantUnusedLess b a = false ↔
      ((a.isPrimary = false ∧ b.isPrimary = true) ∨
       (a.isPrimary = b.isPrimary ∧ b.size ≤ a.size)) := by
  cases ha : a.isPrimary <;> cases hb : b.isPrimary <;>
    simp [relevantUnusedLess, ha, hb]

/-- Transitivity of the non-strict sort order. -/
theorem relevantUnusedLe_trans (a b c : Index) (h1 : relevantUnusedLess b a = false)
    (h2 : relevantUnusedLess c b = false) : relevantUnusedLess c a = false := by
  cases ha : a.isPrimary <;> cases hb : b.isPrimary <;> cases hc : c.isPrimary <;>
    simp_all [relevantUnusedLess] <;> omega

/-- Totality of the non-strict sort order. -/
theorem relevantUnusedLe_total (a b : Index) :
    relevantUnusedLess b a = false ∨ relevantUnusedLess a b = false := by
  cases ha : a.isPrimary <;> cases hb : b.isPrimary <;>
    simp [relevantUnusedLess, ha, hb] <;> omega

/-- The ranked relevant-unused list is ordered by the sort comparator. -/
theorem getRelevantUnusedIndexes_sorted (unused : List Index) (minSize minRows : Int) :
    (getRelevantUnusedIndexes unused minSize minRows).Pairwise
      (fun i j => relevantUnusedLess j i = false) := by
  have htot : IsTotal Index (fun i j => relevantUnusedLess j i = false) :=
    ⟨fun a b => relevantUnusedLe_total a b⟩
  have htrans : IsTrans Index (fun i j => relevantUnusedLess j i = false) :=
    ⟨fun a b c h1 h2 => relevantUnusedLe_trans a b c h1 h2⟩
  exact @List.sorted_insertionSort Index _ _ htot htrans _

/-- Membership in the ranked relevant-unused list. -/
theorem getRelevantUnusedIndexes_mem (unused : List Index) (minSize minRows : Int)
    (ind : Index) :
    ind ∈ getRelevantUnusedIndexes unused minSize minRows ↔
      (ind ∈ unused ∧ ¬(ind.isUnique = true ∧ ind.isPrimary = false) ∧
       minSize ≤ ind.size ∧ minRows ≤ ind.numRows) := by
  have hdef : getRelevantUnusedIndexes unused minSize minRows =
      List.insertionSort (fun i j => relevantUnusedLess j i = false)
        (filterIndexes unused fun ind =>
          if ind.Kind == IndexKind.U then false
          else if ind.size < minSize then false
          else if ind.numRows < minRows then false
          else true) := rfl
  rw [hdef, List.Perm.mem_iff (List.perm_insertionSort _ _), filterIndexes_eq_filter,
    List.mem_filter]
  exact and_congr_right fun _ => relevantKeep_iff minSize minRows ind

/-- C7: the relevant-unused ranking keeps exactly the unused indexes that
are not unique-non-primary, at least the minimum size and at least the
minimum row count, and orders the remainder with non-primary-key indexes
before primary-key indexes and by size descending inside each group; on
the spec's example (non-PK 5 MiB, non-PK 50 MiB, PK 100 MiB above the
thresholds) the output is [50 MiB non-PK, 5 MiB non-PK, 100 MiB PK]. -/
theorem getRelevantUnusedIndexes_spec (unused : List Index) (minSize minRows : Int) :
    (∀ ind, ind ∈ getRelevantUnusedIndexes unused minSize minRows ↔
      (ind ∈ unused ∧ ¬(ind.isUnique = true ∧ ind.isPrimary = false) ∧
       minSize ≤ ind.size ∧ minRows ≤ ind.numRows)) ∧
    (getRelevantUnusedIndexes unused minSize minRows).Pairwise
      (fun a b => (a.isPrimary = false ∧ b.isPrimary = true) ∨
        (a.isPrimary = b.isPrimary ∧ b.size ≤ a.size)) ∧
    getRelevantUnusedIndexes [relA, relB, relC] 1048576 0 = [relB, relA, relC] := by
  refine ⟨fun ind => getRelevantUnusedIndexes_mem unused minSize minRows ind, ?_, by decide⟩
  exact (getRelevantUnusedIndexes_sorted unused minSize minRows).imp
    fun hab => (relevantUnusedLess_false_iff _ _).mp hab

/-- Witness for C7: on the spec's example, the 50 MiB non-primary index is
kept and the whole ranked output is `[relB, relA, relC]`. -/
theorem getRelevantUnusedIndexes_spec_witness :
    relB ∈ getRelevantUnusedIndexes [relA, relB, relC] 1048576 0 ∧
    getRelevantUnusedIndexes [relA, relB, relC] 1048576 0 = [relB, relA, relC] := by
  have h := getRelevantUnusedIndexes_spec [relA, relB, relC] 1048576 0
  exact ⟨(h.1 relB).mpr ⟨by decide, by decide, by decide, by decide⟩, h.2.2⟩

/-- Witness for C9 at a concrete two-element snapshot: all three detectors
hand the cache back unchanged. -/
theorem detectors_preserve_db_witness :
    (findDuplicateIndexSetsDB ⟨[dupA, dupB]⟩).2 = ⟨[dupA, dupB]⟩ ∧
    (findUnusedIndexesDB ⟨[dupA, dupB]⟩ 10).2 = ⟨[dupA, dupB]⟩ ∧
    (findRedundantIndexPairsDB ⟨[dupA, dupB]⟩).2 = ⟨[dupA, dupB]⟩ :=
  ⟨(detectors_preserve_db ⟨[dupA, dupB]⟩ 10).1,
   (detectors_preserve_db ⟨[dupA, dupB]⟩ 10).2.1,
   (detectors_preserve_db ⟨[dupA, dupB]⟩ 10).2.2.1⟩
